import Mathlib

/-!
Verification of the sequence runner in header_extractor/sequence_extractor.py.

The Python module is shallowly embedded below: Python dicts become ordered
association lists, JSON values an inductive type, the HTTP session an
attempt-indexed oracle, and side effects (sleeps, requests) an explicit event
trace.  Exceptions are modelled with Except, mirroring the try/except
structure of the source.
-/

set_option autoImplicit false

namespace HeaderExtractor

/-- A JSON value, as produced by response.json() in the source. -/
inductive JValue where
  | null
  | bool (b : Bool)
  | num (n : Int)
  | str (s : String)
  | arr (elems : List JValue)
  | obj (fields : List (String × JValue))

/-- Python None test: json null parses to None in the source. -/
def JValue.isNull : JValue → Bool
  | .null => true
  | _ => false

/-- Lookup in an ordered association list, modelling Python dict indexing
(dict keys are unique, so first match is the match). -/
def dictGet {α : Type} : List (String × α) → String → Option α
  | [], _ => none
  | (k, v) :: rest, key => if k = key then some v else dictGet rest key

/-- Membership test, modelling the Python `in` operator on a dict. -/
def dictContains {α : Type} (d : List (String × α)) (key : String) : Bool :=
  (dictGet d key).isSome

/-- Assignment d[key] = v on a Python dict: replaces in place when the key
exists (keeping its position), otherwise appends. -/
def dictSet {α : Type} (d : List (String × α)) (key : String) (v : α) :
    List (String × α) :=
  if dictContains d key then
    d.map (fun p => if p.1 = key then (key, v) else p)
  else d ++ [(key, v)]

/-- dict.update(u): assign every entry of u in order. -/
def dictUpdate {α : Type} (d u : List (String × α)) : List (String × α) :=
  u.foldl (fun acc p => dictSet acc p.1 p.2) d

/-- An HTTP response as the runner observes it: only the parsed JSON body
matters to the embedded code. none models response.json() raising on a
non-JSON body (the source then swallows the exception during extraction). -/
structure Response where
  jsonBody : Option JValue

/-- A value stored in the execution context: either extracted JSON data or
the raw response handle bound under name_response. -/
inductive CtxVal where
  | json (v : JValue)
  | resp (r : Response)

/-- The execution context self.context: a Python dict. -/
abbrev Ctx := List (String × CtxVal)

/-- A single-quote character, used when rendering Python error messages. -/
def squote : String := String.singleton (Char.ofNat 39)

def commaSep (parts : List String) : String := String.intercalate ", " parts

/-- Python str.lower(), applied per character (the keys involved are ASCII). -/
def lowerStr (s : String) : String := String.mk (s.data.map Char.toLower)

/-- Python str.upper(), applied per character. -/
def upperStr (s : String) : String := String.mk (s.data.map Char.toUpper)

/-- The split of path.split on the dot character, char by char. -/
def splitOnDotGo : List Char → List Char → List String
  | [], acc => [String.mk acc.reverse]
  | c :: rest, acc =>
    if c = Char.ofNat 46 then String.mk acc.reverse :: splitOnDotGo rest []
    else splitOnDotGo rest (c :: acc)

def splitOnDot (s : String) : List String := splitOnDotGo s.data []


mutual
/-- Python repr() of a JSON value, used when a value is interpolated into a
format string nested inside a container. -/
def JValue.pyRepr : JValue → String
  | .null => "None"
  | .bool true => "True"
  | .bool false => "False"
  | .num n => toString n
  | .str s => squote ++ s ++ squote
  | .arr xs => "[" ++ commaSep (pyReprList xs) ++ "]"
  | .obj fs => "\x7b" ++ commaSep (pyReprFields fs) ++ "\x7d"

def pyReprList : List JValue → List String
  | [] => []
  | x :: xs => JValue.pyRepr x :: pyReprList xs

def pyReprFields : List (String × JValue) → List String
  | [] => []
  | (k, v) :: fs => (squote ++ k ++ squote ++ ": " ++ JValue.pyRepr v) :: pyReprFields fs
end

/-- Python str() of a JSON value (strings unquoted at top level). -/
def JValue.pyStr : JValue → String
  | .str s => s
  | v => v.pyRepr

/-- Python str() of a context value; a response handle renders as a fixed
object description. -/
def CtxVal.render : CtxVal → String
  | .json v => v.pyStr
  | .resp _ => "<Response>"

/-- The two exception classes str.format can raise that the source catches:
KeyError (missing key) and ValueError (malformed placeholder). -/
inductive FmtError where
  | keyError (k : String)
  | valueError (msg : String)

/-- Python str(e) for a format exception; str of a KeyError is the repr of
the missing key. -/
def FmtError.message : FmtError → String
  | .keyError k => squote ++ k ++ squote
  | .valueError m => m

def lbrace : Char := Char.ofNat 123
def rbrace : Char := Char.ofNat 125

/-- Scan a format string up to the closing brace of a placeholder, returning
the field name and the remaining input; none when the brace is unmatched. -/
def readKey : List Char → Option (List Char × List Char)
  | [] => none
  | c :: rest =>
    if c = rbrace then some ([], rest)
    else
      match readKey rest with
      | some (k, after) => some (c :: k, after)
      | none => none

def singleBraceMsg : String := "Single brace encountered in format string"

/-- Core of str.format(**context): simple name placeholders, doubled-brace
escapes, KeyError on a missing context key, ValueError on an unmatched
brace. Fuel is one more than the input length, so the zero case is
unreachable. -/
def pyFormatGo (ctx : Ctx) : Nat → List Char → Except FmtError (List Char)
  | 0, _ => .error (.valueError singleBraceMsg)
  | _ + 1, [] => .ok []
  | fuel + 1, c :: rest =>
    if c = lbrace then
      match rest with
      | c2 :: rest2 =>
        if c2 = lbrace then (pyFormatGo ctx fuel rest2).map (fun s => lbrace :: s)
        else
          match readKey (c2 :: rest2) with
          | some (key, after) =>
            match dictGet ctx (String.mk key) with
            | some v => (pyFormatGo ctx fuel after).map (fun s => v.render.data ++ s)
            | none => .error (.keyError (String.mk key))
          | none => .error (.valueError singleBraceMsg)
      | [] => .error (.valueError singleBraceMsg)
    else if c = rbrace then
      match rest with
      | c2 :: rest2 =>
        if c2 = rbrace then (pyFormatGo ctx fuel rest2).map (fun s => rbrace :: s)
        else .error (.valueError singleBraceMsg)
      | [] => .error (.valueError singleBraceMsg)
    else (pyFormatGo ctx fuel rest).map (fun s => c :: s)

/-- template.format(**context) as used throughout execute_step. -/
def pyFormat (ctx : Ctx) (template : String) : Except FmtError String :=
  (pyFormatGo ctx (template.length + 1) template.data).map String.mk

/-- A Python value that can sit in a step field: None, atoms, dicts, or a
callable of the context. A callable returning .error e models the function
raising an exception whose str() is e. -/
inductive PyVal where
  | vnone
  | vbool (b : Bool)
  | vint (n : Int)
  | vstr (s : String)
  | vdict (fields : List (String × PyVal))
  | vfn (f : Ctx → Except String PyVal)

/-- Python truthiness, as used by `headers or` and the condition check. -/
def PyVal.truthy : PyVal → Bool
  | .vnone => false
  | .vbool b => b
  | .vint n => n != 0
  | .vstr s => !s.isEmpty
  | .vdict fs => !fs.isEmpty
  | .vfn _ => true

/-- Python type name, used to render the AttributeError raised when .items()
is called on a non-dict. -/
def PyVal.typeName : PyVal → String
  | .vnone => "NoneType"
  | .vbool _ => "bool"
  | .vint _ => "int"
  | .vstr _ => "str"
  | .vdict _ => "dict"
  | .vfn _ => "function"

/-- value.items(): succeeds on a dict, raises AttributeError otherwise
(the message mirrors CPython). -/
def pyItems (v : PyVal) : Except String (List (String × PyVal)) :=
  match v with
  | .vdict fs => .ok fs
  | other =>
    .error (squote ++ other.typeName ++ squote ++ " object has no attribute "
      ++ squote ++ "items" ++ squote)

/-- Result of executing a single step (dataclass StepResult). The elapsed
wall clock is modelled as the summed duration of the emitted events. -/
structure StepResult where
  name : String
  success : Bool
  data : List (String × JValue)
  error : Option String
  response : Option Response
  executionTime : Nat

/-- One registered step, the dict appended by add_step. params and
continue_on_failure arrive through kwargs and default to absent / False. -/
structure Step where
  name : String
  url : String
  method : String
  headers : PyVal
  data : PyVal
  dependsOn : List String
  condition : Option (Ctx → Except String PyVal)
  extract : List (String × String)
  maxRetries : Nat
  delay : Nat
  params : PyVal
  continueOnFailure : Bool

/-- add_step: normalizes the method to upper case, applies the
falsy-to-default replacements, and appends the record. -/
def addStep (steps : List Step) (name url method : String) (headers : PyVal)
    (data : PyVal) (dependsOn : List String)
    (condition : Option (Ctx → Except String PyVal))
    (extract : List (String × String)) (maxRetries : Nat) (delay : Nat)
    (params : PyVal) (continueOnFailure : Bool) : List Step :=
  steps ++ [{ name := name, url := url, method := upperStr method,
              headers := if headers.truthy then headers else .vdict [],
              data := data, dependsOn := dependsOn, condition := condition,
              extract := extract, maxRetries := maxRetries, delay := delay,
              params := params, continueOnFailure := continueOnFailure }]

/-- The inner loop of _get_by_dot_path: walk the already split segments. At
each segment the cursor must be a dict; an exact key match is preferred,
otherwise a case-insensitive lookup is built from the keys (later keys
shadowing earlier ones, as in the dict comprehension). -/
def getByDotPathGo : JValue → List String → Option JValue
  | current, [] => some current
  | current, part :: rest =>
    match current with
    | .obj fields =>
      match dictGet fields part with
      | some v => getByDotPathGo v rest
      | none =>
        match (fields.filter (fun p => lowerStr p.1 == lowerStr part)).getLast? with
        | some kv => getByDotPathGo kv.2 rest
        | none => none
    | _ => none

/-- The function _get_by_dot_path(obj, dot_path): fails on a non-dict root, otherwise
splits the path on the dot and walks. -/
def getByDotPath (obj : JValue) (dotPath : String) : Option JValue :=
  match obj with
  | .obj _ => getByDotPathGo obj (splitOnDot dotPath)
  | _ => none

/-- One extraction rule lookup: the dot-path walker when the path contains a
dot, a plain data.get(path) otherwise; nothing on a non-dict body. -/
def lookupRule (data : JValue) (path : String) : Option JValue :=
  match data with
  | .obj fields =>
    if path.data.contains (Char.ofNat 46) then getByDotPath data path
    else dictGet fields path
  | _ => none

/-- The loop body of _extract_data over the rules, carrying the dict of
values extracted so far; a rule is recorded only when its value is not
None (json null parses to None in Python). -/
def extractGo (data : JValue) : List (String × String) →
    List (String × JValue) → List (String × JValue)
  | [], acc => acc
  | (key, path) :: rest, acc =>
    match lookupRule data path with
    | some v => extractGo data rest (if v.isNull then acc else dictSet acc key v)
    | none => extractGo data rest acc

/-- The function _extract_data(response, extract_rules): parse the body as JSON; a parse
failure is swallowed and yields the empty dict, otherwise the rules run
against the parsed structure. -/
def extractData (resp : Response) (rules : List (String × String)) :
    List (String × JValue) :=
  match resp.jsonBody with
  | none => []
  | some data => extractGo data rules []

/-- The per-rule resolution underlying _extract_data: the parsed body (when
parsing succeeded) queried with one rule path. Shorthand for stating the
per-key extraction contract. -/
def resolveExtract (resp : Response) (path : String) : Option JValue :=
  match resp.jsonBody with
  | none => none
  | some data => lookupRule data path

/-- The request the HTTP session receives on one attempt: for GET the params
go into the kwargs, for POST the body goes in as json. -/
structure Request where
  url : String
  headers : List (String × PyVal)
  params : PyVal
  body : PyVal

def mkRequest (method url : String) (headers : List (String × PyVal))
    (params data : PyVal) : Request :=
  if method == "GET" then ⟨url, headers, params, .vnone⟩
  else ⟨url, headers, .vnone, data⟩

/-- One attempt outcome from the HTTP session: a response that passed
raise_for_status, or an exception (network error or non-2xx). -/
inductive RequestOutcome where
  | success (resp : Response)
  | failure (errMsg : String)

/-- The HTTP session, abstracted as an oracle indexed by the attempt number
and the prepared request. -/
abbrev Client := Nat → Request → RequestOutcome

/-- An observable side effect of a step: an issued HTTP request, the fixed
one-unit back-off sleep between retries, or the configured pre-step delay. -/
inductive Event where
  | request (req : Request)
  | backoff
  | delayed (d : Nat)

def Event.duration : Event → Nat
  | .request _ => 0
  | .backoff => 1
  | .delayed d => d

def traceTime (evs : List Event) : Nat := (evs.map Event.duration).sum

def Event.isRequest : Event → Bool
  | .request _ => true
  | _ => false

def countRequests (evs : List Event) : Nat :=
  (evs.filter Event.isRequest).length

/-- The retry loop of execute_step (for attempt in range(max_retries + 1)):
an unsupported method raises a ValueError inside the try, so even it is
retried with a back-off; the attempt at index max_retries re-raises. Fuel
starts at maxRetries + 1 so the zero case is unreachable. -/
def dispatchGo (client : Client) (method : String) (req : Request)
    (maxRetries : Nat) : Nat → Nat → Except String Response × List Event
  | _, 0 => (.error "", [])
  | attempt, fuel + 1 =>
    let step :=
      if method == "GET" || method == "POST" then
        match client attempt req with
        | .success r => (Except.ok r, [Event.request req])
        | .failure m => (Except.error m, [Event.request req])
      else
        ((Except.error ("Unsupported HTTP method: " ++ method) :
            Except String Response), ([] : List Event))
    match step with
    | (.ok r, evs) => (.ok r, evs)
    | (.error msg, evs) =>
      if attempt == maxRetries then (.error msg, evs)
      else
        let rest := dispatchGo client method req maxRetries (attempt + 1) fuel
        (rest.1, evs ++ Event.backoff :: rest.2)

/-- The whole dispatch phase of execute_step for one step. -/
def dispatch (client : Client) (method : String) (req : Request)
    (maxRetries : Nat) : Except String Response × List Event :=
  dispatchGo client method req maxRetries 0 (maxRetries + 1)

/-- The function _evaluate_condition: the raw value of condition(context), with any
exception collapsed to False. -/
def evaluateCondition (cond : Ctx → Except String PyVal) (ctx : Ctx) : PyVal :=
  match cond ctx with
  | .ok v => v
  | .error _ => .vbool false

/-- The dependency check loop: the first name with a missing or failed
result, if any. -/
def firstBadDep (results : List (String × StepResult)) : List String → Option String
  | [] => none
  | dep :: rest =>
    match dictGet results dep with
    | some r => if r.success then firstBadDep results rest else some dep
    | none => some dep

/-- Whether results[dep] exists and succeeded, the per-name test inside the
dependency check. -/
def depSatisfied (results : List (String × StepResult)) (dep : String) : Bool :=
  match dictGet results dep with
  | some r => r.success
  | none => false

/-- The shared per-entry loop over a static mapping (the source repeats it
verbatim for headers, params and data): callable values are invoked with
the context and may raise; string values are formatted with KeyError and
ValueError swallowed back to the literal; others pass through. -/
def processEntries (ctx : Ctx) : List (String × PyVal) →
    Except String (List (String × PyVal))
  | [] => .ok []
  | (k, v) :: rest => do
    let v' ←
      match v with
      | .vfn f => f ctx
      | .vstr s =>
        match pyFormat ctx s with
        | .ok r => Except.ok (PyVal.vstr r)
        | .error _ => Except.ok (PyVal.vstr s)
      | other => Except.ok other
    let rest' ← processEntries ctx rest
    Except.ok ((k, v') :: rest')

def defaultUserAgent : String :=
  "Mozilla/5.0 (Windows NT 10.0; Win64; x64) AppleWebKit/537.36 (KHTML, like Gecko) Chrome/91.0.4472.124 Safari/537.36"

def defaultAccept : String := "application/json, text/plain, */*"

/-- Insertion of the pinned User-Agent and Accept defaults when missing. -/
def withDefaultHeaders (h : List (String × PyVal)) : List (String × PyVal) :=
  let h1 := if dictContains h "User-Agent" then h
            else dictSet h "User-Agent" (.vstr defaultUserAgent)
  if dictContains h1 "Accept" then h1
  else dictSet h1 "Accept" (.vstr defaultAccept)

/-- The headers phase: a callable headers field is invoked (raising
propagates) and a falsy return is replaced by the empty dict; .items() then
raises on a non-dict; each entry is processed; defaults are inserted. -/
def resolveHeaders (ctx : Ctx) (headers : PyVal) :
    Except String (List (String × PyVal)) := do
  let h ←
    match headers with
    | .vfn f => do
      let r ← f ctx
      pure (if r.truthy then r else PyVal.vdict [])
    | other => pure other
  let fields ← pyItems h
  let processed ← processEntries ctx fields
  pure (withDefaultHeaders processed)

/-- The params phase and, identically, the data phase: a callable field is
invoked and its return used unchecked; a dict field has its entries
processed; anything else passes through untouched. -/
def resolveDynField (ctx : Ctx) (v : PyVal) : Except String PyVal :=
  match v with
  | .vfn f => f ctx
  | .vdict fields => do
    let processed ← processEntries ctx fields
    pure (.vdict processed)
  | other => pure other

/-- The mutable state execute_step reads: prior results and the context. -/
structure SeqState where
  results : List (String × StepResult)
  context : Ctx

/-- Outcome of the body of execute_step up to and excluding extraction. -/
inductive CoreOutcome where
  | skipped
  | responded (resp : Response)

/-- The message of the exception raised by the dependency check. -/
def depErrorMsg (dep : String) : String :=
  "Dependency " ++ dep ++ " failed or not executed"

/-- The guard `step cond and not evaluate(cond, context)` inverted: whether
execution proceeds past the condition check. -/
def conditionPasses (step : Step) (ctx : Ctx) : Bool :=
  match step.condition with
  | some cond => (evaluateCondition cond ctx).truthy
  | none => true

/-- The try block of execute_step through the dispatch loop: dependency
check, condition check (skip path), delay, URL formatting (unguarded, a
format error fails the step), dynamic field resolution, dispatch. -/
def stepCore (client : Client) (step : Step) (st : SeqState) :
    Except String CoreOutcome × List Event :=
  match firstBadDep st.results step.dependsOn with
  | some dep => (.error (depErrorMsg dep), [])
  | none =>
    if conditionPasses step st.context then
      let delayEvents : List Event :=
        if step.delay > 0 then [.delayed step.delay] else []
      match pyFormat st.context step.url with
      | .error e => (.error e.message, delayEvents)
      | .ok url =>
        match resolveHeaders st.context step.headers with
        | .error e => (.error e, delayEvents)
        | .ok hs =>
          match resolveDynField st.context step.params with
          | .error e => (.error e, delayEvents)
          | .ok params =>
            match resolveDynField st.context step.data with
            | .error e => (.error e, delayEvents)
            | .ok data =>
              let req := mkRequest step.method url hs params data
              match dispatch client step.method req step.maxRetries with
              | (.error e, evs) => (.error e, delayEvents ++ evs)
              | (.ok resp, evs) => (.ok (.responded resp), delayEvents ++ evs)
    else (.ok .skipped, [])

/-- Outcome of the whole try block of execute_step. -/
inductive BodyOutcome where
  | skipped
  | completed (data : List (String × JValue)) (resp : Response) (newCtx : Ctx)

/-- The try block of execute_step: the core, then extraction (which merges
into the context and the result data) and the name_response binding. -/
def stepBody (client : Client) (step : Step) (st : SeqState) :
    Except String BodyOutcome × List Event :=
  match stepCore client step st with
  | (.error e, evs) => (.error e, evs)
  | (.ok .skipped, evs) => (.ok .skipped, evs)
  | (.ok (.responded resp), evs) =>
    let extracted :=
      if step.extract.isEmpty then [] else extractData resp step.extract
    let ctx1 :=
      if step.extract.isEmpty then st.context
      else dictUpdate st.context (extracted.map (fun p => (p.1, CtxVal.json p.2)))
    let ctx2 := dictSet ctx1 (step.name ++ "_response") (.resp resp)
    (.ok (.completed extracted resp ctx2), evs)

/-- execute_step(step): the try/except wrapper around the body, producing a
StepResult in every case, the possibly updated context, and the trace. -/
def executeStep (client : Client) (step : Step) (st : SeqState) :
    StepResult × Ctx × List Event :=
  match stepBody client step st with
  | (.error e, evs) =>
    ({ name := step.name, success := false, data := [], error := some e,
       response := none, executionTime := traceTime evs }, st.context, evs)
  | (.ok .skipped, evs) =>
    ({ name := step.name, success := true, data := [("skipped", .bool true)],
       error := none, response := none, executionTime := traceTime evs },
     st.context, evs)
  | (.ok (.completed data resp ctx), evs) =>
    ({ name := step.name, success := true, data := data, error := none,
       response := some resp, executionTime := traceTime evs }, ctx, evs)

/-- The loop of execute(): skip names already in results, otherwise run the
step, record its result, and stop when it failed without
continue_on_failure. The Bool records whether the loop broke early. -/
def execLoop (client : Client) : List Step → SeqState →
    SeqState × Bool × List Event
  | [], st => (st, false, [])
  | step :: rest, st =>
    if dictContains st.results step.name then execLoop client rest st
    else
      let out := executeStep client step st
      let st' : SeqState := ⟨dictSet st.results step.name out.1, out.2.1⟩
      if !out.1.success && !step.continueOnFailure then (st', true, out.2.2)
      else
        let next := execLoop client rest st'
        (next.1, next.2.1, out.2.2 ++ next.2.2)

/-- The SequenceExtractor instance state the runner touches: the registered
steps, self.results and self.context. A fresh instance has all three
empty. -/
structure SequenceExtractor where
  steps : List Step
  results : List (String × StepResult)
  context : Ctx

/-- execute(): resets self.results to the empty dict (self.context is not
reset) and runs the loop over the registered steps. -/
def SequenceExtractor.execute (client : Client) (se : SequenceExtractor) :
    SequenceExtractor × List Event :=
  let out := execLoop client se.steps ⟨[], se.context⟩
  ({ se with results := out.1.results, context := out.1.context }, out.2.2)

/-- The event pattern of a dispatch phase that made n attempts, with the
one-unit back-off between consecutive attempts and none after the last. -/
def attemptsTrace (req : Request) : Nat → List Event
  | 0 => []
  | 1 => [.request req]
  | n + 2 => .request req :: .backoff :: attemptsTrace req (n + 1)

/-! Concrete fixtures used by the witnesses and counterexamples. -/

/-- A minimal GET step with the add_step defaults. -/
def plainStep (name url : String) : Step :=
  ⟨name, url, "GET", .vdict [], .vnone, [], none, [], 1, 0, .vnone, false⟩

/-- A response whose body is the JSON object with a single field q = "1". -/
def okResp : Response := ⟨some (.obj [("q", .str "1")])⟩

/-- A client whose every attempt succeeds with okResp. -/
def okClient : Client := fun _ _ => .success okResp

/-- A client that fails on the first two attempts and then succeeds. -/
def flakyClient : Client :=
  fun attempt _ => if attempt < 2 then .failure "boom" else .success okResp

/-- A client whose every attempt fails. -/
def downClient : Client := fun _ _ => .failure "down"

/-- A bare request fixture for dispatch-level witnesses. -/
def bareReq : Request := ⟨"http://r", [], .vnone, .vnone⟩

/-- Fixture for C1: the middle of three steps fails because it declares a
dependency that is never registered. -/
def w1Step2 : Step := { plainStep "beta" "http://b" with dependsOn := ["nope"] }

def w1Seq : SequenceExtractor :=
  ⟨[plainStep "alpha" "http://a", w1Step2, plainStep "gamma" "http://c"], [], []⟩

/-- Fixture for C3: a step that declares a dependency never registered. -/
def w3Step : Step := { plainStep "mu" "http://m" with dependsOn := ["ghost3"] }

/-- Fixture for C4: a step whose condition is present and evaluates to a
falsy value. -/
def w4Step : Step :=
  { plainStep "delta" "http://d" with
      condition := some (fun _ => .ok (.vbool false)) }

/-- Fixture for C6: a step extracting q into key qq. -/
def w6Step : Step := { plainStep "zeta" "http://z" with extract := [("qq", "q")] }

/-- Fixture for C7: step A is gated on a context key that only step B
extracts, so A is skipped on the first run; on a second execute() of the
same instance the stale key flips the condition of A to true. -/
def c7StepA : Step :=
  { plainStep "A" "http://a" with
      condition := some (fun ctx => .ok (.vbool (dictContains ctx "p"))) }

def c7StepB : Step := { plainStep "B" "http://b" with extract := [("p", "q")] }

def c7Seq : SequenceExtractor := ⟨[c7StepA, c7StepB], [], []⟩

/-- Fixture for C8: a URL whose placeholder names a key absent from the
context. -/
def c8Step : Step := plainStep "epsilon" "http://x/\x7bm\x7d"

/-- Fixture for the C8 witness: a header value with the same missing-key
placeholder that the URL of c8Step has. -/
def w8Step : Step :=
  { plainStep "eta" "http://x/\x7bm\x7d" with
      headers := .vdict [("X-K", .vstr "\x7bm\x7d")] }

/-- Fixture for C9: a headers function returning None, a falsy non-mapping. -/
def c9Step : Step :=
  { plainStep "theta" "http://t" with headers := .vfn (fun _ => .ok .vnone) }

/-- Fixture for the C9 witness: a headers function that raises. -/
def w9Step : Step :=
  { plainStep "iota" "http://i" with headers := .vfn (fun _ => .error "hdrboom") }

/-- Fixture for the C10 witness: a step that fails its dependency check. -/
def w10Step : Step := { plainStep "kappa" "http://k" with dependsOn := ["ghost"] }

/-! Association-list lemmas about the Python dict model. -/

theorem dictGet_cons {α : Type} (k : String) (v : α) (rest : List (String × α))
    (key : String) :
    dictGet ((k, v) :: rest) key = if k = key then some v else dictGet rest key := rfl

theorem dictGet_append {α : Type} (d e : List (String × α)) (key : String) :
    dictGet (d ++ e) key =
      match dictGet d key with
      | some v => some v
      | none => dictGet e key := by
  induction d with
  | nil => simp [dictGet]
  | cons p rest ih =>
    obtain ⟨k, v⟩ := p
    by_cases h : k = key <;> simp [dictGet_cons, h, ih]

theorem dictGet_eq_none_iff {α : Type} (d : List (String × α)) (key : String) :
    dictGet d key = none ↔ key ∉ d.map Prod.fst := by
  induction d with
  | nil => simp [dictGet]
  | cons p rest ih =>
    obtain ⟨k, v⟩ := p
    by_cases h : k = key
    · subst h
      simp [dictGet_cons]
    · have h' : key ≠ k := fun hk => h hk.symm
      simp [dictGet_cons, h, h', ih]

theorem dictNotContains_get_none {α : Type} (d : List (String × α)) (key : String)
    (h : ¬ dictContains d key = true) : dictGet d key = none :=
  Option.not_isSome_iff_eq_none.mp (by simpa [dictContains] using h)

theorem dictGet_map_assign {α : Type} (d : List (String × α)) (k : String) (v : α) :
    dictGet (d.map fun p => if p.1 = k then (k, v) else p) k =
      if dictContains d k then some v else none := by
  induction d with
  | nil => simp [dictGet, dictContains]
  | cons p rest ih =>
    obtain ⟨k₁, v₁⟩ := p
    by_cases h : k₁ = k
    · subst h
      simp [dictGet_cons, dictContains]
    · simp [dictGet_cons, dictContains, h, ih]

theorem dictGet_map_assign_ne {α : Type} (d : List (String × α)) (k key : String)
    (v : α) (hne : k ≠ key) :
    dictGet (d.map fun p => if p.1 = k then (k, v) else p) key = dictGet d key := by
  induction d with
  | nil => simp [dictGet]
  | cons p rest ih =>
    obtain ⟨k₁, v₁⟩ := p
    by_cases h : k₁ = k
    · subst h
      simp [dictGet_cons, hne, Ne.symm hne, ih]
    · by_cases h2 : k₁ = key <;> simp [dictGet_cons, h, h2, Ne.symm hne, ih]

theorem dictGet_set_self {α : Type} (d : List (String × α)) (k : String) (v : α) :
    dictGet (dictSet d k v) k = some v := by
  unfold dictSet
  by_cases h : dictContains d k
  · simp [h, dictGet_map_assign]
  · rw [if_neg h, dictGet_append, dictNotContains_get_none d k h]
    simp [dictGet_cons]

theorem dictGet_set_ne {α : Type} (d : List (String × α)) (k key : String)
    (v : α) (hne : k ≠ key) :
    dictGet (dictSet d k v) key = dictGet d key := by
  unfold dictSet
  by_cases h : dictContains d k
  · simp [h, dictGet_map_assign_ne _ _ _ _ hne]
  · rw [if_neg h, dictGet_append]
    cases hd : dictGet d key <;> simp [dictGet_cons, dictGet, hne]

theorem map_assign_keys {α : Type} (d : List (String × α)) (k : String) (v : α) :
    (d.map fun p => if p.1 = k then (k, v) else p).map Prod.fst = d.map Prod.fst := by
  induction d with
  | nil => rfl
  | cons p rest ih =>
    obtain ⟨k₁, v₁⟩ := p
    by_cases hk : k₁ = k
    · subst hk
      simp [ih]
    · simp [hk, ih]

theorem dictSet_keys {α : Type} (d : List (String × α)) (k : String) (v : α) :
    (dictSet d k v).map Prod.fst =
      if dictContains d k then d.map Prod.fst else d.map Prod.fst ++ [k] := by
  unfold dictSet
  by_cases h : dictContains d k
  · rw [if_pos h, if_pos h, map_assign_keys]
  · rw [if_neg h, if_neg h, List.map_append]
    rfl

theorem dictSet_keysNodup {α : Type} (d : List (String × α)) (k : String) (v : α)
    (h : (d.map Prod.fst).Nodup) : ((dictSet d k v).map Prod.fst).Nodup := by
  rw [dictSet_keys]
  by_cases hc : dictContains d k
  · simp [hc, h]
  · have hk : k ∉ d.map Prod.fst :=
      (dictGet_eq_none_iff d k).mp (dictNotContains_get_none d k hc)
    simp [hc, List.nodup_append, h, hk]

theorem dictGet_update_of_nodup {α : Type} (u : List (String × α))
    (hu : (u.map Prod.fst).Nodup) (d : List (String × α)) (key : String) :
    dictGet (dictUpdate d u) key =
      match dictGet u key with
      | some v => some v
      | none => dictGet d key := by
  induction u generalizing d with
  | nil => simp [dictUpdate, dictGet]
  | cons p rest ih =>
    obtain ⟨k₁, v₁⟩ := p
    simp only [List.map_cons, List.nodup_cons] at hu
    have step : dictUpdate d ((k₁, v₁) :: rest) = dictUpdate (dictSet d k₁ v₁) rest := rfl
    rw [step, ih hu.2]
    by_cases h : k₁ = key
    · subst h
      have : dictGet rest k₁ = none :=
        (dictGet_eq_none_iff rest k₁).mpr hu.1
      simp [this, dictGet_cons, dictGet_set_self]
    · simp [dictGet_cons, h, dictGet_set_ne _ _ _ _ h]

theorem dictGet_map_json (ex : List (String × JValue)) (key : String) :
    dictGet (ex.map fun p => (p.1, CtxVal.json p.2)) key =
      (dictGet ex key).map CtxVal.json := by
  induction ex with
  | nil => simp [dictGet]
  | cons p rest ih =>
    obtain ⟨k, v⟩ := p
    by_cases h : k = key <;> simp [dictGet_cons, h, ih]

/-! Lemmas about the extraction phase. -/

theorem extractGo_get_not_mem (data : JValue) (rules : List (String × String))
    (key : String) (h : key ∉ rules.map Prod.fst) :
    ∀ acc, dictGet (extractGo data rules acc) key = dictGet acc key := by
  induction rules with
  | nil => intro acc; rfl
  | cons p rest ih =>
    intro acc
    obtain ⟨k, path⟩ := p
    simp only [List.map_cons, List.mem_cons, not_or] at h
    cases hl : lookupRule data path with
    | none => simpa [extractGo, hl] using ih h.2 acc
    | some v =>
      by_cases hn : v.isNull
      · simpa [extractGo, hl, hn] using ih h.2 acc
      · simp only [extractGo, hl]
        rw [if_neg hn]
        rw [ih h.2]
        exact dictGet_set_ne _ _ _ _ (Ne.symm h.1)

theorem extractGo_get_mem (data : JValue) (rules : List (String × String))
    (key path : String) :
    (rules.map Prod.fst).Nodup → (key, path) ∈ rules →
    ∀ acc, dictGet (extractGo data rules acc) key =
      match lookupRule data path with
      | some v => if v.isNull then dictGet acc key else some v
      | none => dictGet acc key := by
  induction rules with
  | nil => intro _ hmem; cases hmem
  | cons p rest ih =>
    intro hnd hmem acc
    obtain ⟨k₁, p₁⟩ := p
    simp only [List.map_cons, List.nodup_cons] at hnd
    rcases List.mem_cons.mp hmem with heq | hrest
    · injection heq with hk hp
      subst hk
      subst hp
      cases hl : lookupRule data path with
      | none =>
        simp only [extractGo, hl]
        exact extractGo_get_not_mem data rest key hnd.1 acc
      | some v =>
        simp only [extractGo, hl]
        by_cases hn : v.isNull
        · rw [if_pos hn]
          rw [extractGo_get_not_mem data rest key hnd.1 acc]
          simp [hn]
        · rw [if_neg hn]
          rw [extractGo_get_not_mem data rest key hnd.1 _]
          simp [hn, dictGet_set_self]
    · have hky : k₁ ≠ key := fun he => hnd.1 (he ▸ List.mem_map_of_mem Prod.fst hrest)
      cases hl : lookupRule data p₁ with
      | none =>
        simp only [extractGo, hl]
        exact ih hnd.2 hrest acc
      | some v =>
        simp only [extractGo, hl]
        by_cases hn : v.isNull
        · rw [if_pos hn]
          exact ih hnd.2 hrest acc
        · rw [if_neg hn]
          rw [ih hnd.2 hrest (dictSet acc k₁ v),
              dictGet_set_ne acc k₁ key v hky]

theorem extractGo_keysNodup (data : JValue) (rules : List (String × String)) :
    ∀ acc, (acc.map Prod.fst).Nodup →
      ((extractGo data rules acc).map Prod.fst).Nodup := by
  induction rules with
  | nil => intro acc h; exact h
  | cons p rest ih =>
    intro acc h
    obtain ⟨k, path⟩ := p
    cases hl : lookupRule data path with
    | none => simpa [extractGo, hl] using ih acc h
    | some v =>
      by_cases hn : v.isNull
      · simpa [extractGo, hl, hn] using ih acc h
      · simp only [extractGo, hl]
        rw [if_neg hn]
        exact ih _ (dictSet_keysNodup acc k v h)

theorem extractData_keysNodup (resp : Response) (rules : List (String × String)) :
    ((extractData resp rules).map Prod.fst).Nodup := by
  unfold extractData
  cases resp.jsonBody with
  | none => simp
  | some data => exact extractGo_keysNodup data rules [] (by simp)

theorem extractData_nil (resp : Response) : extractData resp [] = [] := by
  unfold extractData
  cases resp.jsonBody <;> rfl

/-! Lemmas about traces and the dispatch loop. -/

theorem countRequests_append (a b : List Event) :
    countRequests (a ++ b) = countRequests a + countRequests b := by
  simp [countRequests, List.filter_append]

theorem countRequests_attemptsTrace (req : Request) :
    ∀ n, countRequests (attemptsTrace req n) = n
  | 0 => rfl
  | 1 => rfl
  | n + 2 => by
    have ih := countRequests_attemptsTrace req (n + 1)
    simp only [attemptsTrace, countRequests, List.filter] at ih ⊢
    simp only [Event.isRequest] at ih ⊢
    simpa [List.length_cons] using ih

theorem traceTime_attemptsTrace (req : Request) :
    ∀ n, traceTime (attemptsTrace req n) = n - 1
  | 0 => rfl
  | 1 => rfl
  | n + 2 => by
    have ih := traceTime_attemptsTrace req (n + 1)
    simp only [attemptsTrace, traceTime, List.map_cons, List.sum_cons,
      Event.duration] at ih ⊢
    omega

theorem countRequests_nil : countRequests [] = 0 := rfl

theorem countRequests_cons_req (r : Request) (t : List Event) :
    countRequests (Event.request r :: t) = countRequests t + 1 := by
  simp [countRequests, List.filter_cons, Event.isRequest]

theorem countRequests_cons_backoff (t : List Event) :
    countRequests (Event.backoff :: t) = countRequests t := by
  simp [countRequests, List.filter_cons, Event.isRequest]

theorem countRequests_cons_delayed (d : Nat) (t : List Event) :
    countRequests (Event.delayed d :: t) = countRequests t := by
  simp [countRequests, List.filter_cons, Event.isRequest]

theorem dispatchGo_requests_le (client : Client) (method : String)
    (req : Request) (mr : Nat) :
    ∀ fuel attempt,
      countRequests (dispatchGo client method req mr attempt fuel).2 ≤ fuel
  | 0, attempt => by simp [dispatchGo, countRequests]
  | fuel + 1, attempt => by
    have ih := dispatchGo_requests_le client method req mr fuel (attempt + 1)
    by_cases hm : (method == "GET" || method == "POST") = true
    · simp only [dispatchGo, hm, if_true]
      cases hc : client attempt req with
      | success r =>
        simp only [countRequests_cons_req, countRequests_nil]
        omega
      | failure m =>
        by_cases ha : (attempt == mr) = true
        · simp only [ha, if_true, countRequests_cons_req, countRequests_nil]
          omega
        · simp only [ha, Bool.false_eq_true, if_false, List.cons_append,
            List.nil_append, countRequests_cons_req, countRequests_cons_backoff]
          omega
    · simp only [dispatchGo, hm, Bool.false_eq_true, if_false]
      by_cases ha : (attempt == mr) = true
      · simp only [ha, if_true, countRequests_nil]
        omega
      · simp only [ha, Bool.false_eq_true, if_false, List.nil_append,
          countRequests_cons_backoff]
        omega

theorem dispatch_requests_le (client : Client) (method : String)
    (req : Request) (mr : Nat) :
    countRequests (dispatch client method req mr).2 ≤ mr + 1 :=
  dispatchGo_requests_le client method req mr (mr + 1) 0


theorem dispatchGo_step (client : Client) (method : String) (req : Request)
    (mr attempt fuel : Nat) :
    dispatchGo client method req mr attempt (fuel + 1) =
      (let step :=
        if method == "GET" || method == "POST" then
          match client attempt req with
          | .success r => (Except.ok r, [Event.request req])
          | .failure m => (Except.error m, [Event.request req])
        else ((Except.error ("Unsupported HTTP method: " ++ method) :
                Except String Response), ([] : List Event))
      match step with
      | (.ok r, evs) => (.ok r, evs)
      | (.error msg, evs) =>
        if attempt == mr then (.error msg, evs)
        else
          ((dispatchGo client method req mr (attempt + 1) fuel).1,
            evs ++ Event.backoff ::
              (dispatchGo client method req mr (attempt + 1) fuel).2)) := rfl

theorem dispatchGo_success (client : Client) (method : String) (req : Request)
    (mr : Nat) (hm : (method == "GET" || method == "POST") = true) :
    ∀ n attempt fuel, attempt + fuel = mr + 1 → n < fuel →
      (∀ i, i < n → ∃ m, client (attempt + i) req = .failure m) →
      ∀ r, client (attempt + n) req = .success r →
      dispatchGo client method req mr attempt fuel =
        (.ok r, attemptsTrace req (n + 1))
  | 0, attempt, fuel + 1, hsum, hlt, hfail, r, hsucc => by
    rw [Nat.add_zero] at hsucc
    simp only [dispatchGo, hm, if_true, hsucc, attemptsTrace]
  | n + 1, attempt, fuel + 1, hsum, hlt, hfail, r, hsucc => by
    obtain ⟨m, hm0⟩ := hfail 0 (Nat.succ_pos n)
    rw [Nat.add_zero] at hm0
    have hne : (attempt == mr) = false := by
      have : attempt < mr := by omega
      simp [Nat.ne_of_lt this]
    have hidx : attempt + (n + 1) = (attempt + 1) + n := by omega
    rw [hidx] at hsucc
    have ih := dispatchGo_success client method req mr hm n (attempt + 1) fuel
      (by omega) (by omega)
      (fun i hi => by
        have hj : (attempt + 1) + i = attempt + (i + 1) := by omega
        rw [hj]
        exact hfail (i + 1) (by omega)) r hsucc
    rw [dispatchGo_step]
    simp only [hm, if_true, hm0]
    simp only [hne, Bool.false_eq_true, if_false]
    rw [ih]
    simp [attemptsTrace]

theorem dispatchGo_allfail (client : Client) (method : String) (req : Request)
    (mr : Nat) (hm : (method == "GET" || method == "POST") = true) :
    ∀ fuel attempt, 0 < fuel → attempt + fuel = mr + 1 →
      (∀ i, i < fuel → ∃ m, client (attempt + i) req = .failure m) →
      ∃ m, client mr req = .failure m ∧
        dispatchGo client method req mr attempt fuel =
          (.error m, attemptsTrace req fuel)
  | 0, attempt, hpos, hsum, hfail => absurd hpos (by omega)
  | 1, attempt, hpos, hsum, hfail => by
    obtain ⟨m, hm0⟩ := hfail 0 (by omega)
    rw [Nat.add_zero] at hm0
    have hend : attempt = mr := by omega
    subst hend
    refine ⟨m, hm0, ?_⟩
    rw [dispatchGo_step]
    simp only [hm, if_true, hm0, beq_self_eq_true, attemptsTrace]
  | fuel + 2, attempt, hpos, hsum, hfail => by
    obtain ⟨m, hm0⟩ := hfail 0 (by omega)
    rw [Nat.add_zero] at hm0
    have hne : (attempt == mr) = false := by
      have : attempt < mr := by omega
      simp [Nat.ne_of_lt this]
    obtain ⟨m', hmr, ih⟩ := dispatchGo_allfail client method req mr hm (fuel + 1)
      (attempt + 1) (by omega) (by omega)
      (fun i hi => by
        have hj : (attempt + 1) + i = attempt + (i + 1) := by omega
        rw [hj]
        exact hfail (i + 1) (by omega))
    refine ⟨m', hmr, ?_⟩
    rw [dispatchGo_step]
    simp only [hm, if_true, hm0]
    simp only [hne, Bool.false_eq_true, if_false]
    rw [ih]
    simp [attemptsTrace]

theorem dispatchGo_events (client : Client) (method : String) (req : Request)
    (mr : Nat) :
    ∀ fuel attempt e,
      e ∈ (dispatchGo client method req mr attempt fuel).2 →
      e = Event.request req ∨ e = Event.backoff
  | 0, attempt, e => by simp [dispatchGo]
  | fuel + 1, attempt, e => by
    intro hmem
    have ih := dispatchGo_events client method req mr fuel (attempt + 1) e
    by_cases hmth : (method == "GET" || method == "POST") = true
    · simp only [dispatchGo, hmth, if_true] at hmem
      cases hc : client attempt req with
      | success r =>
        rw [hc] at hmem
        simp at hmem
        exact Or.inl hmem
      | failure m =>
        rw [hc] at hmem
        by_cases ha : (attempt == mr) = true
        · simp [ha] at hmem
          exact Or.inl hmem
        · simp only [ha, Bool.false_eq_true, if_false, List.cons_append,
            List.nil_append, List.mem_cons] at hmem
          rcases hmem with h1 | h2 | h3
          · exact Or.inl h1
          · exact Or.inr h2
          · exact ih h3
    · simp only [dispatchGo, hmth, Bool.false_eq_true, if_false] at hmem
      by_cases ha : (attempt == mr) = true
      · simp [ha] at hmem
      · simp only [ha, Bool.false_eq_true, if_false, List.nil_append,
          List.mem_cons] at hmem
        rcases hmem with h2 | h3
        · exact Or.inr h2
        · exact ih h3


/-! Lemmas about the step executor and the run loop. -/

theorem stepCore_depError (client : Client) (step : Step) (st : SeqState)
    (dep : String) (h : firstBadDep st.results step.dependsOn = some dep) :
    stepCore client step st = (.error (depErrorMsg dep), []) := by
  simp [stepCore, h]

theorem stepCore_skip (client : Client) (step : Step) (st : SeqState)
    (hdep : firstBadDep st.results step.dependsOn = none)
    (hcond : conditionPasses step st.context = false) :
    stepCore client step st = (.ok .skipped, []) := by
  simp [stepCore, hdep, hcond]

theorem stepBody_of_core_error (client : Client) (step : Step) (st : SeqState)
    (e : String) (evs : List Event)
    (h : stepCore client step st = (.error e, evs)) :
    stepBody client step st = (.error e, evs) := by
  simp [stepBody, h]

theorem stepBody_of_core_skipped (client : Client) (step : Step) (st : SeqState)
    (evs : List Event) (h : stepCore client step st = (.ok .skipped, evs)) :
    stepBody client step st = (.ok .skipped, evs) := by
  simp [stepBody, h]

theorem stepBody_responded (client : Client) (step : Step) (st : SeqState)
    (resp : Response) (evs : List Event)
    (h : stepCore client step st = (.ok (.responded resp), evs)) :
    stepBody client step st =
      (.ok (.completed (extractData resp step.extract) resp
        (dictSet (dictUpdate st.context ((extractData resp step.extract).map
            (fun p => (p.1, CtxVal.json p.2))))
          (step.name ++ "_response") (.resp resp))), evs) := by
  unfold stepBody
  rw [h]
  by_cases he : step.extract.isEmpty
  · have hnil : step.extract = [] := by
      cases hx : step.extract with
      | nil => rfl
      | cons a l => rw [hx] at he; simp [List.isEmpty] at he
    simp [he, hnil, extractData_nil, dictUpdate]
  · simp [he]

theorem executeStep_of_body_error (client : Client) (step : Step)
    (st : SeqState) (e : String) (evs : List Event)
    (h : stepBody client step st = (.error e, evs)) :
    executeStep client step st =
      ({ name := step.name, success := false, data := [], error := some e,
         response := none, executionTime := traceTime evs }, st.context, evs) := by
  simp [executeStep, h]

theorem executeStep_of_body_skipped (client : Client) (step : Step)
    (st : SeqState) (evs : List Event)
    (h : stepBody client step st = (.ok .skipped, evs)) :
    executeStep client step st =
      ({ name := step.name, success := true,
         data := [("skipped", .bool true)], error := none,
         response := none, executionTime := traceTime evs }, st.context, evs) := by
  simp [executeStep, h]

theorem executeStep_of_body_completed (client : Client) (step : Step)
    (st : SeqState) (data : List (String × JValue)) (resp : Response)
    (ctx : Ctx) (evs : List Event)
    (h : stepBody client step st = (.ok (.completed data resp ctx), evs)) :
    executeStep client step st =
      ({ name := step.name, success := true, data := data, error := none,
         response := some resp, executionTime := traceTime evs }, ctx, evs) := by
  simp [executeStep, h]

theorem evaluateCondition_not_truthy (cond : Ctx → Except String PyVal)
    (ctx : Ctx)
    (h : (∃ v, cond ctx = .ok v ∧ v.truthy = false) ∨
         ∃ e, cond ctx = .error e) :
    (evaluateCondition cond ctx).truthy = false := by
  rcases h with ⟨v, hv, ht⟩ | ⟨e, he⟩
  · simp [evaluateCondition, hv, ht]
  · simp [evaluateCondition, he, PyVal.truthy]

theorem execLoop_append (client : Client) (xs ys : List Step) :
    ∀ st, execLoop client (xs ++ ys) st =
      (let out := execLoop client xs st
       if out.2.1 then out
       else
         (let next := execLoop client ys out.1
          (next.1, next.2.1, out.2.2 ++ next.2.2))) := by
  induction xs with
  | nil => intro st; simp [execLoop]
  | cons step rest ih =>
    intro st
    by_cases h : dictContains st.results step.name
    · simp only [List.cons_append, execLoop, h, if_true]
      exact ih st
    · simp only [List.cons_append, execLoop, h, Bool.false_eq_true, if_false]
      by_cases hs :
          (!(executeStep client step st).1.success && !step.continueOnFailure) = true
      · simp [hs]
      · simp only [hs, Bool.false_eq_true, if_false]
        simp only [List.append_eq]
        rw [ih]
        set st' : SeqState :=
          ⟨dictSet st.results step.name (executeStep client step st).1,
            (executeStep client step st).2.1⟩ with hst
        cases hh : (execLoop client rest st').2.1 <;>
          simp [hh, List.append_assoc]

theorem resolveHeaders_falsy_fn (ctx : Ctx) (f : Ctx → Except String PyVal)
    (v : PyVal) (hf : f ctx = .ok v) (hv : v.truthy = false) :
    resolveHeaders ctx (.vfn f) = resolveHeaders ctx (.vdict []) := by
  simp [resolveHeaders, hf, hv, Except.bind, bind, pure]

theorem processEntries_str_error (ctx : Ctx) (k s : String)
    (rest : List (String × PyVal)) (e : FmtError)
    (h : pyFormat ctx s = .error e) :
    processEntries ctx ((k, .vstr s) :: rest) =
      (processEntries ctx rest).map (fun r => (k, .vstr s) :: r) := by
  cases pe : processEntries ctx rest <;>
    simp [processEntries, h, pe, Except.map, Except.bind, bind, pure]


theorem firstBadDep_of_bad (results : List (String × StepResult))
    (deps : List String) (d : String) (hd : d ∈ deps)
    (hbad : depSatisfied results d = false) :
    ∃ dep, firstBadDep results deps = some dep ∧
      depSatisfied results dep = false := by
  induction deps with
  | nil => cases hd
  | cons d₁ rest ih =>
    cases hg : dictGet results d₁ with
    | none =>
      refine ⟨d₁, ?_, ?_⟩
      · simp [firstBadDep, hg]
      · simp [depSatisfied, hg]
    | some r =>
      by_cases hr : r.success
      · rcases List.mem_cons.mp hd with he | hrest
        · subst he
          simp only [depSatisfied, hg] at hbad
          rw [hbad] at hr
          cases hr
        · have := ih hrest
          simpa [firstBadDep, hg, hr] using this
      · refine ⟨d₁, ?_, ?_⟩
        · simp [firstBadDep, hg, hr]
        · simp [depSatisfied, hg, Bool.eq_false_iff.mpr hr]

theorem firstBadDep_some_bad (results : List (String × StepResult))
    (deps : List String) (dep : String)
    (h : firstBadDep results deps = some dep) :
    dep ∈ deps ∧ depSatisfied results dep = false := by
  induction deps with
  | nil => cases h
  | cons d₁ rest ih =>
    cases hg : dictGet results d₁ with
    | none =>
      rw [firstBadDep, hg] at h
      injection h with h
      subst h
      exact ⟨List.mem_cons_self _ _, by simp [depSatisfied, hg]⟩
    | some r =>
      by_cases hr : r.success
      · simp only [firstBadDep, hg] at h
        rw [if_pos hr] at h
        obtain ⟨hmem, hbad⟩ := ih h
        exact ⟨List.mem_cons_of_mem _ hmem, hbad⟩
      · simp only [firstBadDep, hg] at h
        rw [if_neg hr] at h
        injection h with h
        subst h
        exact ⟨List.mem_cons_self _ _,
          by simp [depSatisfied, hg, Bool.eq_false_iff.mpr hr]⟩

theorem stepCore_proceed (client : Client) (step : Step) (st : SeqState)
    (hdep : firstBadDep st.results step.dependsOn = none)
    (hcond : conditionPasses step st.context = true) :
    stepCore client step st =
      (match pyFormat st.context step.url with
       | .error e =>
         (.error e.message, if step.delay > 0 then [.delayed step.delay] else [])
       | .ok url =>
         match resolveHeaders st.context step.headers with
         | .error e =>
           (.error e, if step.delay > 0 then [.delayed step.delay] else [])
         | .ok hs =>
           match resolveDynField st.context step.params with
           | .error e =>
             (.error e, if step.delay > 0 then [.delayed step.delay] else [])
           | .ok params =>
             match resolveDynField st.context step.data with
             | .error e =>
               (.error e, if step.delay > 0 then [.delayed step.delay] else [])
             | .ok data =>
               match dispatch client step.method
                   (mkRequest step.method url hs params data) step.maxRetries with
               | (.error e, evs) =>
                 (.error e,
                   (if step.delay > 0 then [.delayed step.delay] else []) ++ evs)
               | (.ok resp, evs) =>
                 (.ok (.responded resp),
                   (if step.delay > 0 then [.delayed step.delay] else []) ++ evs)) := by
  simp [stepCore, hdep, hcond]

theorem stepCore_url_error (client : Client) (step : Step) (st : SeqState)
    (e : FmtError)
    (hdep : firstBadDep st.results step.dependsOn = none)
    (hcond : conditionPasses step st.context = true)
    (hurl : pyFormat st.context step.url = .error e) :
    stepCore client step st =
      (.error e.message, if step.delay > 0 then [.delayed step.delay] else []) := by
  rw [stepCore_proceed client step st hdep hcond, hurl]

theorem stepCore_headers_error (client : Client) (step : Step) (st : SeqState)
    (url : String) (e : String)
    (hdep : firstBadDep st.results step.dependsOn = none)
    (hcond : conditionPasses step st.context = true)
    (hurl : pyFormat st.context step.url = .ok url)
    (hh : resolveHeaders st.context step.headers = .error e) :
    stepCore client step st =
      (.error e, if step.delay > 0 then [.delayed step.delay] else []) := by
  rw [stepCore_proceed client step st hdep hcond, hurl, hh]

theorem stepCore_params_error (client : Client) (step : Step) (st : SeqState)
    (url : String) (hs : List (String × PyVal)) (e : String)
    (hdep : firstBadDep st.results step.dependsOn = none)
    (hcond : conditionPasses step st.context = true)
    (hurl : pyFormat st.context step.url = .ok url)
    (hh : resolveHeaders st.context step.headers = .ok hs)
    (hp : resolveDynField st.context step.params = .error e) :
    stepCore client step st =
      (.error e, if step.delay > 0 then [.delayed step.delay] else []) := by
  rw [stepCore_proceed client step st hdep hcond, hurl, hh, hp]

theorem stepCore_data_error (client : Client) (step : Step) (st : SeqState)
    (url : String) (hs : List (String × PyVal)) (params : PyVal) (e : String)
    (hdep : firstBadDep st.results step.dependsOn = none)
    (hcond : conditionPasses step st.context = true)
    (hurl : pyFormat st.context step.url = .ok url)
    (hh : resolveHeaders st.context step.headers = .ok hs)
    (hp : resolveDynField st.context step.params = .ok params)
    (hd : resolveDynField st.context step.data = .error e) :
    stepCore client step st =
      (.error e, if step.delay > 0 then [.delayed step.delay] else []) := by
  rw [stepCore_proceed client step st hdep hcond, hurl, hh, hp, hd]

theorem countRequests_delayEvents (d : Nat) :
    countRequests (if d > 0 then [Event.delayed d] else []) = 0 := by
  split <;> simp [countRequests_cons_delayed, countRequests_nil]

theorem event_request_not_delay (d : Nat) (req : Request) :
    Event.request req ∉ (if d > 0 then [Event.delayed d] else []) := by
  split <;> simp

theorem mkRequest_url (method url : String) (hs : List (String × PyVal))
    (params data : PyVal) : (mkRequest method url hs params data).url = url := by
  unfold mkRequest
  split <;> rfl

theorem stepCore_request_urls (client : Client) (step : Step) (st : SeqState)
    (u : String) (hurl : pyFormat st.context step.url = .ok u) :
    ∀ req, Event.request req ∈ (stepCore client step st).2 → req.url = u := by
  intro req hmem
  cases hdep : firstBadDep st.results step.dependsOn with
  | some dep =>
    rw [stepCore_depError client step st dep hdep] at hmem
    simp at hmem
  | none =>
    by_cases hcond : conditionPasses step st.context
    · rw [stepCore_proceed client step st hdep hcond, hurl] at hmem
      cases hh : resolveHeaders st.context step.headers with
      | error e =>
        rw [hh] at hmem
        exact absurd hmem (event_request_not_delay _ _)
      | ok hs =>
        rw [hh] at hmem
        cases hp : resolveDynField st.context step.params with
        | error e =>
          rw [hp] at hmem
          exact absurd hmem (event_request_not_delay _ _)
        | ok params =>
          rw [hp] at hmem
          cases hd : resolveDynField st.context step.data with
          | error e =>
            rw [hd] at hmem
            exact absurd hmem (event_request_not_delay _ _)
          | ok data =>
            rw [hd] at hmem
            rcases hdisp : dispatch client step.method
                (mkRequest step.method u hs params data) step.maxRetries with
              ⟨res, evs⟩
            have hgo : dispatchGo client step.method
                (mkRequest step.method u hs params data) step.maxRetries 0
                (step.maxRetries + 1) = (res, evs) := hdisp
            have hdis : ∀ e, e ∈ evs →
                e = Event.request (mkRequest step.method u hs params data) ∨
                e = Event.backoff := by
              intro e he
              apply dispatchGo_events client step.method
                (mkRequest step.method u hs params data) step.maxRetries
                (step.maxRetries + 1) 0 e
              rw [hgo]
              exact he
            simp only [hdisp] at hmem
            cases res with
            | error e2 =>
              simp only [List.mem_append] at hmem
              rcases hmem with hin | hin
              · exact absurd hin (event_request_not_delay _ _)
              · rcases hdis _ hin with h1 | h1
                · injection h1 with h1
                  rw [h1]
                  exact mkRequest_url _ _ _ _ _
                · exact Event.noConfusion h1
            | ok resp =>
              simp only [List.mem_append] at hmem
              rcases hmem with hin | hin
              · exact absurd hin (event_request_not_delay _ _)
              · rcases hdis _ hin with h1 | h1
                · injection h1 with h1
                  rw [h1]
                  exact mkRequest_url _ _ _ _ _
                · exact Event.noConfusion h1
    · rw [stepCore_skip client step st hdep
        (Bool.eq_false_iff.mpr hcond)] at hmem
      simp at hmem

theorem stepCore_setExtract (client : Client) (step : Step) (st : SeqState)
    (r : List (String × String)) :
    stepCore client { step with extract := r } st = stepCore client step st := rfl

theorem executeStep_extract_irrelevant (client : Client) (step : Step)
    (st : SeqState) (r : List (String × String)) :
    (executeStep client { step with extract := r } st).1.success
        = (executeStep client step st).1.success
      ∧ (executeStep client { step with extract := r } st).1.error
        = (executeStep client step st).1.error := by
  have hc : stepCore client { step with extract := r } st = stepCore client step st :=
    stepCore_setExtract client step st r
  unfold executeStep stepBody
  rw [hc]
  rcases hsc : stepCore client step st with ⟨res, evs⟩
  cases res with
  | error e => simp
  | ok out =>
    cases out with
    | skipped => simp
    | responded resp => simp



theorem executeStep_trace (client : Client) (step : Step) (st : SeqState) :
    (executeStep client step st).2.2 = (stepCore client step st).2 := by
  unfold executeStep stepBody
  rcases h : stepCore client step st with ⟨res, evs⟩
  cases res with
  | error e => simp
  | ok o => cases o <;> simp

/-! The claims. -/

/-- C1: when a step yields an unsuccessful Result and is not marked
continue_on_failure, execute() halts: the returned mapping is exactly the
results accumulated through the failing step, and the name of any step not
yet attempted is absent from it. -/
theorem c1_halt_on_failure (client : Client) (se : SequenceExtractor)
    (pre : List Step) (s : Step) (post : List Step) (st₁ : SeqState)
    (evs₁ : List Event)
    (hsteps : se.steps = pre ++ s :: post)
    (hpre : execLoop client pre ⟨[], se.context⟩ = (st₁, false, evs₁))
    (hnew : dictContains st₁.results s.name = false)
    (hfail : (executeStep client s st₁).1.success = false)
    (hnc : s.continueOnFailure = false) :
    (se.execute client).1.results
        = dictSet st₁.results s.name (executeStep client s st₁).1
      ∧ ∀ name, dictContains st₁.results name = false → name ≠ s.name →
          dictGet (se.execute client).1.results name = none := by
  have hres : (se.execute client).1.results
      = dictSet st₁.results s.name (executeStep client s st₁).1 := by
    unfold SequenceExtractor.execute
    rw [hsteps, execLoop_append client pre (s :: post) ⟨[], se.context⟩]
    rw [hpre]
    simp only [Bool.false_eq_true, if_false]
    simp only [execLoop, hnew, Bool.false_eq_true, if_false, hfail, hnc,
      Bool.not_false, Bool.and_self, if_true]
  refine ⟨hres, fun name hn hne => ?_⟩
  rw [hres, dictGet_set_ne _ _ _ _ (Ne.symm hne)]
  exact dictNotContains_get_none _ _ (by simp [hn])

theorem c1_halt_on_failure_witness :
    dictGet ((w1Seq.execute okClient).1.results) "gamma" = none
      ∧ (dictGet ((w1Seq.execute okClient).1.results) "beta").isSome = true := by
  have h := c1_halt_on_failure okClient w1Seq [plainStep "alpha" "http://a"]
    w1Step2 [plainStep "gamma" "http://c"]
    (execLoop okClient [plainStep "alpha" "http://a"] ⟨[], []⟩).1
    (execLoop okClient [plainStep "alpha" "http://a"] ⟨[], []⟩).2.2
    rfl rfl rfl rfl rfl
  refine ⟨h.2 "gamma" rfl (by decide), ?_⟩
  rw [h.1, show w1Step2.name = "beta" from rfl, dictGet_set_self]
  rfl

/-- C2: the dispatch phase makes at most max_retries + 1 attempts; a client
failing on the first n attempts and succeeding on attempt n (zero-based)
yields a success after exactly n + 1 requests, an always-failing client an
error after exactly max_retries + 1 requests, and the trace interleaves
exactly one one-unit back-off between consecutive attempts (attemptsTrace),
never after the last. -/
theorem c2_retry_semantics (client : Client) (method : String) (req : Request)
    (mr : Nat) (hm : method = "GET" ∨ method = "POST") :
    countRequests (dispatch client method req mr).2 ≤ mr + 1
    ∧ (∀ n r, n ≤ mr → (∀ i, i < n → ∃ m, client i req = .failure m) →
        client n req = .success r →
        dispatch client method req mr = (.ok r, attemptsTrace req (n + 1)))
    ∧ ((∀ i, i ≤ mr → ∃ m, client i req = .failure m) →
        ∃ m, client mr req = .failure m ∧
          dispatch client method req mr = (.error m, attemptsTrace req (mr + 1)))
    ∧ (∀ n, countRequests (attemptsTrace req n) = n) := by
  have hbeq : (method == "GET" || method == "POST") = true := by
    rcases hm with h | h <;> simp [h]
  refine ⟨dispatch_requests_le client method req mr, ?_, ?_,
    countRequests_attemptsTrace req⟩
  · intro n r hn hfail hsucc
    unfold dispatch
    exact dispatchGo_success client method req mr hbeq n 0 (mr + 1) (by omega)
      (by omega) (fun i hi => by simpa using hfail i hi) r (by simpa using hsucc)
  · intro hfail
    unfold dispatch
    exact dispatchGo_allfail client method req mr hbeq (mr + 1) 0 (by omega)
      (by omega) (fun i hi => by simpa using hfail i (by omega))

theorem c2_retry_semantics_witness :
    dispatch flakyClient "GET" bareReq 2 = (.ok okResp, attemptsTrace bareReq 3)
      ∧ (∃ m, dispatch downClient "GET" bareReq 2
          = (.error m, attemptsTrace bareReq 3))
      ∧ countRequests (attemptsTrace bareReq 3) = 3 := by
  have h1 := (c2_retry_semantics flakyClient "GET" bareReq 2 (Or.inl rfl)).2.1 2
    okResp (by omega) (fun i hi => ⟨"boom", by simp [flakyClient, hi]⟩) rfl
  have h2 := (c2_retry_semantics downClient "GET" bareReq 2 (Or.inl rfl)).2.2.1
    (fun i _ => ⟨"down", rfl⟩)
  obtain ⟨m, hmr, heq⟩ := h2
  exact ⟨h1, ⟨m, heq⟩,
    (c2_retry_semantics flakyClient "GET" bareReq 2 (Or.inl rfl)).2.2.2 3⟩

/-- C3: a step with a missing or failed declared dependency fails before any
request: zero requests, success false, and a descriptive error naming the
first missing or failed dependency. -/
theorem c3_dependency_check (client : Client) (step : Step) (st : SeqState)
    (d : String) (hd : d ∈ step.dependsOn)
    (hbad : depSatisfied st.results d = false) :
    ∃ dep, firstBadDep st.results step.dependsOn = some dep
      ∧ depSatisfied st.results dep = false
      ∧ executeStep client step st =
          ({ name := step.name, success := false, data := [],
             error := some (depErrorMsg dep), response := none,
             executionTime := 0 }, st.context, [])
      ∧ countRequests (executeStep client step st).2.2 = 0 := by
  obtain ⟨dep, hf, hb⟩ := firstBadDep_of_bad st.results step.dependsOn d hd hbad
  have hcore := stepCore_depError client step st dep hf
  have hbody := stepBody_of_core_error client step st _ _ hcore
  have hexec := executeStep_of_body_error client step st _ _ hbody
  refine ⟨dep, hf, hb, ?_, ?_⟩
  · rw [hexec]
    rfl
  · rw [hexec]
    rfl

theorem c3_dependency_check_witness :
    (executeStep okClient w3Step ⟨[], []⟩).1.error = some (depErrorMsg "ghost3")
      ∧ (executeStep okClient w3Step ⟨[], []⟩).1.success = false
      ∧ countRequests (executeStep okClient w3Step ⟨[], []⟩).2.2 = 0 := by
  obtain ⟨dep, hf, hb, hexec, hcount⟩ := c3_dependency_check okClient w3Step
    ⟨[], []⟩ "ghost3" (by simp [w3Step, plainStep]) rfl
  have hdep : dep = "ghost3" := by
    have h0 : firstBadDep ([] : List (String × StepResult)) w3Step.dependsOn
        = some "ghost3" := rfl
    have := hf.symm.trans h0
    injection this
  subst hdep
  exact ⟨by rw [hexec], by rw [hexec], hcount⟩

/-- C4: a present condition evaluating to a falsy value or raising makes the
step a successful skip: data is exactly the skipped marker, no request is
made, the context is untouched, and a later dependency check on this step
passes. -/
theorem c4_condition_skip (client : Client) (step : Step) (st : SeqState)
    (cond : Ctx → Except String PyVal)
    (hdep : firstBadDep st.results step.dependsOn = none)
    (hc : step.condition = some cond)
    (hfalse : (∃ v, cond st.context = .ok v ∧ v.truthy = false) ∨
              ∃ e, cond st.context = .error e) :
    executeStep client step st =
      ({ name := step.name, success := true,
         data := [("skipped", .bool true)], error := none, response := none,
         executionTime := 0 }, st.context, [])
      ∧ countRequests (executeStep client step st).2.2 = 0
      ∧ depSatisfied
          (dictSet st.results step.name (executeStep client step st).1)
          step.name = true := by
  have hcp : conditionPasses step st.context = false := by
    unfold conditionPasses
    rw [hc]
    exact evaluateCondition_not_truthy cond st.context hfalse
  have hcore := stepCore_skip client step st hdep hcp
  have hbody := stepBody_of_core_skipped client step st _ hcore
  have hexec := executeStep_of_body_skipped client step st _ hbody
  refine ⟨by rw [hexec]; rfl, by rw [hexec]; rfl, ?_⟩
  rw [hexec]
  unfold depSatisfied
  rw [dictGet_set_self]

theorem c4_condition_skip_witness :
    (executeStep okClient w4Step ⟨[], []⟩).1.success = true
      ∧ (executeStep okClient w4Step ⟨[], []⟩).1.data
          = [("skipped", JValue.bool true)]
      ∧ countRequests (executeStep okClient w4Step ⟨[], []⟩).2.2 = 0 := by
  obtain ⟨hexec, hcnt, hdep⟩ := c4_condition_skip okClient w4Step ⟨[], []⟩
    (fun _ => .ok (.vbool false)) rfl rfl (Or.inl ⟨.vbool false, rfl, rfl⟩)
  exact ⟨by rw [hexec], by rw [hexec], hcnt⟩

/-- C5: dot-path resolution walks dot-separated segments, failing on a
non-mapping cursor, preferring an exact key match and falling back to a
case-insensitive match; the spec example resolves a.b.c to 5 through the
mixed-case key B, and a path without a dot is a single direct lookup. -/
theorem c5_dot_path_resolution :
    extractData ⟨some (.obj [("a", .obj [("B", .obj [("c", .num 5)])])])⟩
        [("x", "a.b.c")] = [("x", .num 5)]
    ∧ (∀ (v : JValue) (path : String), (∀ fs, v ≠ .obj fs) →
        getByDotPath v path = none)
    ∧ (∀ (v : JValue) (part : String) (rest : List String),
        (∀ fs, v ≠ .obj fs) → getByDotPathGo v (part :: rest) = none)
    ∧ (∀ fields (part : String) rest v, dictGet fields part = some v →
        getByDotPathGo (.obj fields) (part :: rest) = getByDotPathGo v rest)
    ∧ (∀ fields (path : String), path.data.contains (Char.ofNat 46) = false →
        lookupRule (.obj fields) path = dictGet fields path) := by
  refine ⟨rfl, ?_, ?_, ?_, ?_⟩
  · intro v path h
    cases v with
    | obj fs => exact absurd rfl (h fs)
    | null => rfl
    | bool b => rfl
    | num n => rfl
    | str s => rfl
    | arr xs => rfl
  · intro v part rest h
    cases v with
    | obj fs => exact absurd rfl (h fs)
    | null => rfl
    | bool b => rfl
    | num n => rfl
    | str s => rfl
    | arr xs => rfl
  · intro fields part rest v h
    simp [getByDotPathGo, h]
  · intro fields path h
    simp only [lookupRule]
    rw [if_neg (by rw [h]; simp)]

theorem c5_dot_path_resolution_witness :
    getByDotPath (.num 3) "a" = none
      ∧ getByDotPathGo (.str "s") ("a" :: []) = none
      ∧ getByDotPathGo (.obj [("k", .num 7)]) ("k" :: [])
          = getByDotPathGo (.num 7) []
      ∧ lookupRule (.obj [("k", .num 7)]) "k" = dictGet [("k", JValue.num 7)] "k" := by
  obtain ⟨h1, h2, h3, h4, h5⟩ := c5_dot_path_resolution
  exact ⟨h2 (.num 3) "a" (fun fs h => JValue.noConfusion h),
    h3 (.str "s") "a" [] (fun fs h => JValue.noConfusion h),
    h4 [("k", .num 7)] "k" [] (.num 7) rfl,
    h5 [("k", .num 7)] "k" rfl⟩


theorem map_json_keys (ex : List (String × JValue)) :
    (ex.map (fun p => (p.1, CtxVal.json p.2))).map Prod.fst = ex.map Prod.fst := by
  induction ex with
  | nil => rfl
  | cons p rest ih => simp [ih]

theorem resolveHeaders_fn_raises (ctx : Ctx) (f : Ctx → Except String PyVal)
    (e : String) (hf : f ctx = .error e) :
    resolveHeaders ctx (.vfn f) = .error e := by
  simp [resolveHeaders, hf, Except.bind, bind]

theorem executeStep_headers_congr (client : Client) (step : Step)
    (st : SeqState) (h2 : PyVal)
    (hr : resolveHeaders st.context step.headers = resolveHeaders st.context h2) :
    executeStep client step st
      = executeStep client { step with headers := h2 } st := by
  have hcore : stepCore client step st
      = stepCore client { step with headers := h2 } st := by
    unfold stepCore
    rw [hr]
    rfl
  unfold executeStep stepBody
  rw [hcore]

/-- C6: extraction never fails the step: success and error are unchanged by
any choice of extraction rules; on a successful response each rule whose
path resolves to a non-null value lands in both the result data and the
context under its key, and a rule that resolves to nothing or to null is
silently skipped for that key only. -/
theorem c6_extraction_never_fails (client : Client) (step : Step)
    (st : SeqState) :
    (∀ r : List (String × String),
      (executeStep client { step with extract := r } st).1.success
          = (executeStep client step st).1.success
        ∧ (executeStep client { step with extract := r } st).1.error
          = (executeStep client step st).1.error)
    ∧ (∀ resp evs, stepCore client step st = (.ok (.responded resp), evs) →
        (executeStep client step st).1.success = true
        ∧ (executeStep client step st).1.error = none
        ∧ (executeStep client step st).1.data = extractData resp step.extract
        ∧ ∀ key v, dictGet (extractData resp step.extract) key = some v →
            key ≠ step.name ++ "_response" →
            dictGet (executeStep client step st).2.1 key = some (CtxVal.json v))
    ∧ (∀ resp rules (key path : String),
        (rules.map Prod.fst).Nodup → (key, path) ∈ rules →
          ((∀ v, resolveExtract resp path = some v → v.isNull = false →
              dictGet (extractData resp rules) key = some v)
           ∧ (resolveExtract resp path = none →
              dictGet (extractData resp rules) key = none)
           ∧ (∀ v, resolveExtract resp path = some v → v.isNull = true →
              dictGet (extractData resp rules) key = none))) := by
  refine ⟨executeStep_extract_irrelevant client step st, ?_, ?_⟩
  · intro resp evs hc
    have hbody := stepBody_responded client step st resp evs hc
    have hexec := executeStep_of_body_completed client step st _ resp _ evs hbody
    refine ⟨by rw [hexec], by rw [hexec], by rw [hexec], ?_⟩
    intro key v hv hne
    rw [hexec]
    show dictGet (dictSet (dictUpdate st.context ((extractData resp step.extract).map
        (fun p => (p.1, CtxVal.json p.2)))) (step.name ++ "_response")
        (.resp resp)) key = some (CtxVal.json v)
    rw [dictGet_set_ne _ _ _ _ (Ne.symm hne)]
    rw [dictGet_update_of_nodup _
      (by rw [map_json_keys]; exact extractData_keysNodup resp step.extract)]
    rw [dictGet_map_json, hv]
    rfl
  · intro resp rules key path hnd hmem
    cases hj : resp.jsonBody with
    | none =>
      have hre : resolveExtract resp path = none := by
        unfold resolveExtract
        rw [hj]
      have hed : extractData resp rules = [] := by
        unfold extractData
        rw [hj]
      refine ⟨fun v hv _ => ?_, fun _ => by rw [hed]; rfl, fun v hv _ => ?_⟩
      · rw [hre] at hv
        cases hv
      · rw [hed]
        rfl
    | some data =>
      have hre : resolveExtract resp path = lookupRule data path := by
        unfold resolveExtract
        rw [hj]
      have hed : extractData resp rules = extractGo data rules [] := by
        unfold extractData
        rw [hj]
      have hchr := extractGo_get_mem data rules key path hnd hmem []
      refine ⟨fun v hv hnn => ?_, fun hv => ?_, fun v hv hnn => ?_⟩
      · rw [hed, hchr, ← hre, hv]
        simp [hnn]
      · rw [hed, hchr, ← hre, hv]
        rfl
      · rw [hed, hchr, ← hre, hv]
        simp [hnn, dictGet]

theorem c6_extraction_never_fails_witness :
    (executeStep okClient w6Step ⟨[], []⟩).1.success = true
      ∧ (executeStep okClient w6Step ⟨[], []⟩).1.data = [("qq", JValue.str "1")]
      ∧ dictGet (executeStep okClient w6Step ⟨[], []⟩).2.1 "qq"
          = some (CtxVal.json (.str "1"))
      ∧ dictGet (extractData okResp [("qq", "q"), ("zz", "nothere")]) "zz" = none := by
  have h := c6_extraction_never_fails okClient w6Step ⟨[], []⟩
  obtain ⟨hs, he, hd, hctx⟩ := h.2.1 okResp (stepCore okClient w6Step ⟨[], []⟩).2 rfl
  refine ⟨hs, ?_, ?_, ?_⟩
  · rw [hd]
    rfl
  · exact hctx "qq" (.str "1") rfl (by decide)
  · exact (h.2.2 okResp [("qq", "q"), ("zz", "nothere")] "zz" "nothere"
      (by decide) (by simp)).2.1 rfl


/-- C7 counterexample: on the instance c7Seq, step A is skipped in the first
execute() (its gate key p is absent), yet in a second execute() on the same
instance A executes for real, because the context entry p extracted by B in
the first run is still present at the start of the second run; the claim
that the Context is created fresh and empty at the start of every execute()
call is therefore false. -/
theorem c7_context_reset_counterexample :
    (dictGet ((c7Seq.execute okClient).1.results) "A").map (fun r => r.data)
        = some [("skipped", JValue.bool true)]
      ∧ (dictGet (((c7Seq.execute okClient).1.execute okClient).1.results)
          "A").map (fun r => r.data) = some []
      ∧ dictContains ((c7Seq.execute okClient).1.context) "p" = true := by
  exact ⟨rfl, rfl, rfl⟩

/-- C7 amended: execute() does reset the Results mapping (the outcome is
independent of the results stored on the instance), but the Execution
Context is not reset: the run starts from the context currently on the
instance, which is empty only at construction and persists across
execute() calls. -/
theorem c7_results_reset_context_persists (client : Client)
    (se : SequenceExtractor) (r₀ : List (String × StepResult)) (ctx₀ : Ctx) :
    ({ steps := se.steps, results := r₀, context := se.context } :
        SequenceExtractor).execute client = se.execute client
    ∧ ({ steps := se.steps, results := se.results, context := ctx₀ } :
        SequenceExtractor).execute client
      = (let out := execLoop client se.steps ⟨[], ctx₀⟩
         ({ steps := se.steps, results := out.1.results,
            context := out.1.context }, out.2.2)) := by
  exact ⟨rfl, rfl⟩

/-- C8 counterexample: a URL whose placeholder names a key missing from the
Context does not keep the literal string; the step fails with the KeyError
message and makes no request (and consequently no URL re-validation stage
exists to run). -/
theorem c8_url_interpolation_counterexample :
    (executeStep okClient c8Step ⟨[], []⟩).1.success = false
      ∧ (executeStep okClient c8Step ⟨[], []⟩).1.error
          = some (squote ++ "m" ++ squote)
      ∧ countRequests (executeStep okClient c8Step ⟨[], []⟩).2.2 = 0 := by
  exact ⟨rfl, rfl, rfl⟩

/-- C8 amended: the URL is interpolated with str.format against the Context,
but unlike header, param and body string fields the call is unguarded: a
missing key or malformed placeholder fails the step with that error and no
request is made. On success the interpolated string is used as the request
URL as-is, with no absolute-URL re-validation; static string fields keep
their literal on a format error. -/
theorem c8_url_interpolation_amended (client : Client) (step : Step)
    (st : SeqState)
    (hdep : firstBadDep st.results step.dependsOn = none)
    (hcond : conditionPasses step st.context = true) :
    (∀ e, pyFormat st.context step.url = .error e →
        (executeStep client step st).1.success = false
        ∧ (executeStep client step st).1.error = some e.message
        ∧ countRequests (executeStep client step st).2.2 = 0)
    ∧ (∀ u req, pyFormat st.context step.url = .ok u →
        Event.request req ∈ (executeStep client step st).2.2 → req.url = u)
    ∧ (∀ (ctx : Ctx) (k s : String) rest e, pyFormat ctx s = .error e →
        processEntries ctx ((k, PyVal.vstr s) :: rest)
          = (processEntries ctx rest).map (fun r => (k, PyVal.vstr s) :: r)) := by
  refine ⟨?_, ?_, fun ctx k s rest e he => processEntries_str_error ctx k s rest e he⟩
  · intro e he
    have hcore := stepCore_url_error client step st e hdep hcond he
    have hbody := stepBody_of_core_error client step st _ _ hcore
    have hexec := executeStep_of_body_error client step st _ _ hbody
    refine ⟨by rw [hexec], by rw [hexec], ?_⟩
    rw [hexec]
    exact countRequests_delayEvents step.delay
  · intro u req hu hmem
    rw [executeStep_trace] at hmem
    exact stepCore_request_urls client step st u hu req hmem

theorem c8_url_interpolation_amended_witness :
    (executeStep okClient w8Step ⟨[], []⟩).1.success = false
      ∧ (executeStep okClient w8Step ⟨[], []⟩).1.error
          = some (squote ++ "m" ++ squote)
      ∧ countRequests (executeStep okClient w8Step ⟨[], []⟩).2.2 = 0
      ∧ processEntries [] [("X-K", PyVal.vstr "\x7bm\x7d")]
          = .ok [("X-K", PyVal.vstr "\x7bm\x7d")] := by
  have h := c8_url_interpolation_amended okClient w8Step ⟨[], []⟩ rfl rfl
  obtain ⟨hs, he, hc⟩ := h.1 (.keyError "m") rfl
  refine ⟨hs, by rw [he]; rfl, hc, ?_⟩
  have h3 := h.2.2 [] "X-K" "\x7bm\x7d" [] (.keyError "m") rfl
  rw [h3]
  rfl

/-- C9 counterexample: a headers function returning None (a falsy
non-mapping) does not fail the step: the None is replaced by the empty
mapping and the step proceeds to a request and succeeds. -/
theorem c9_nonmapping_counterexample :
    (executeStep okClient c9Step ⟨[], []⟩).1.success = true
      ∧ (executeStep okClient c9Step ⟨[], []⟩).1.error = none
      ∧ countRequests (executeStep okClient c9Step ⟨[], []⟩).2.2 = 1 := by
  exact ⟨rfl, rfl, rfl⟩

/-- C9 amended: when a headers, params or body function raises, the step
fails hard with that message and makes no request; but a non-mapping return
value is not uniformly a hard failure: a falsy headers return is replaced
by the empty mapping and the step behaves exactly as with empty static
headers. -/
theorem c9_dynamic_field_amended (client : Client) (step : Step)
    (st : SeqState)
    (hdep : firstBadDep st.results step.dependsOn = none)
    (hcond : conditionPasses step st.context = true) :
    (∀ f e url, step.headers = .vfn f → f st.context = .error e →
        pyFormat st.context step.url = .ok url →
        (executeStep client step st).1.success = false
        ∧ (executeStep client step st).1.error = some e
        ∧ countRequests (executeStep client step st).2.2 = 0)
    ∧ (∀ f e url hs, step.params = .vfn f → f st.context = .error e →
        pyFormat st.context step.url = .ok url →
        resolveHeaders st.context step.headers = .ok hs →
        (executeStep client step st).1.success = false
        ∧ (executeStep client step st).1.error = some e
        ∧ countRequests (executeStep client step st).2.2 = 0)
    ∧ (∀ f e url hs params, step.data = .vfn f → f st.context = .error e →
        pyFormat st.context step.url = .ok url →
        resolveHeaders st.context step.headers = .ok hs →
        resolveDynField st.context step.params = .ok params →
        (executeStep client step st).1.success = false
        ∧ (executeStep client step st).1.error = some e
        ∧ countRequests (executeStep client step st).2.2 = 0)
    ∧ (∀ f v, step.headers = .vfn f → f st.context = .ok v →
        v.truthy = false →
        executeStep client step st
          = executeStep client { step with headers := .vdict [] } st) := by
  refine ⟨?_, ?_, ?_, ?_⟩
  · intro f e url hh hf hu
    have hrh : resolveHeaders st.context step.headers = .error e := by
      rw [hh]
      exact resolveHeaders_fn_raises st.context f e hf
    have hcore := stepCore_headers_error client step st url e hdep hcond hu hrh
    have hbody := stepBody_of_core_error client step st _ _ hcore
    have hexec := executeStep_of_body_error client step st _ _ hbody
    refine ⟨by rw [hexec], by rw [hexec], ?_⟩
    rw [hexec]
    exact countRequests_delayEvents step.delay
  · intro f e url hs hp hf hu hh
    have hrp : resolveDynField st.context step.params = .error e := by
      rw [hp]
      exact hf
    have hcore := stepCore_params_error client step st url hs e hdep hcond hu hh hrp
    have hbody := stepBody_of_core_error client step st _ _ hcore
    have hexec := executeStep_of_body_error client step st _ _ hbody
    refine ⟨by rw [hexec], by rw [hexec], ?_⟩
    rw [hexec]
    exact countRequests_delayEvents step.delay
  · intro f e url hs params hd hf hu hh hp
    have hrd : resolveDynField st.context step.data = .error e := by
      rw [hd]
      exact hf
    have hcore := stepCore_data_error client step st url hs params e hdep hcond
      hu hh hp hrd
    have hbody := stepBody_of_core_error client step st _ _ hcore
    have hexec := executeStep_of_body_error client step st _ _ hbody
    refine ⟨by rw [hexec], by rw [hexec], ?_⟩
    rw [hexec]
    exact countRequests_delayEvents step.delay
  · intro f v hh hf hv
    apply executeStep_headers_congr
    rw [hh]
    exact resolveHeaders_falsy_fn st.context f v hf hv

theorem c9_dynamic_field_amended_witness :
    (executeStep okClient w9Step ⟨[], []⟩).1.success = false
      ∧ (executeStep okClient w9Step ⟨[], []⟩).1.error = some "hdrboom"
      ∧ countRequests (executeStep okClient w9Step ⟨[], []⟩).2.2 = 0
      ∧ executeStep okClient c9Step ⟨[], []⟩
          = executeStep okClient { c9Step with headers := .vdict [] } ⟨[], []⟩ := by
  have h := c9_dynamic_field_amended okClient w9Step ⟨[], []⟩ rfl rfl
  obtain ⟨hs, he, hc⟩ := h.1 (fun _ => .error "hdrboom") "hdrboom" "http://i"
    rfl rfl rfl
  have h4 := (c9_dynamic_field_amended okClient c9Step ⟨[], []⟩ rfl rfl).2.2.2
    (fun _ => .ok .vnone) .vnone rfl rfl rfl
  exact ⟨hs, he, hc, h4⟩

/-- C10: execute_step is total at its interface: it always returns a
StepResult (no exception escapes, by construction of the embedding), the
result name equals the step name, the execution time is the elapsed time of
the emitted trace, an unsuccessful result always carries an error message,
and an exception escaping the try block produces exactly the failed result
with that message. -/
theorem c10_execute_step_total (client : Client) (step : Step)
    (st : SeqState) :
    (executeStep client step st).1.name = step.name
    ∧ (executeStep client step st).1.executionTime
        = traceTime (executeStep client step st).2.2
    ∧ ((executeStep client step st).1.success = false →
        (executeStep client step st).1.error.isSome = true)
    ∧ (∀ e evs, stepBody client step st = (.error e, evs) →
        (executeStep client step st).1
          = { name := step.name, success := false, data := [],
              error := some e, response := none,
              executionTime := traceTime evs }) := by
  rcases hb : stepBody client step st with ⟨res, evs⟩
  cases res with
  | error e =>
    have hexec := executeStep_of_body_error client step st e evs hb
    refine ⟨by rw [hexec], by rw [hexec], fun _ => by rw [hexec]; rfl,
      fun e2 evs2 h2 => ?_⟩
    injection h2 with h2a h2b
    injection h2a with h2a
    subst h2a
    subst h2b
    rw [hexec]
  | ok o =>
    cases o with
    | skipped =>
      have hexec := executeStep_of_body_skipped client step st evs hb
      refine ⟨by rw [hexec], by rw [hexec], ?_, fun e2 evs2 h2 => ?_⟩
      · rw [hexec]
        intro hfalse
        cases hfalse
      · injection h2 with h2a h2b
        cases h2a
    | completed d resp ctx =>
      have hexec := executeStep_of_body_completed client step st d resp ctx evs hb
      refine ⟨by rw [hexec], by rw [hexec], ?_, fun e2 evs2 h2 => ?_⟩
      · rw [hexec]
        intro hfalse
        cases hfalse
      · injection h2 with h2a h2b
        cases h2a

theorem c10_execute_step_total_witness :
    (executeStep okClient w10Step ⟨[], []⟩).1.name = "kappa"
      ∧ (executeStep okClient w10Step ⟨[], []⟩).1.error.isSome = true := by
  have h := c10_execute_step_total okClient w10Step ⟨[], []⟩
  exact ⟨h.1, h.2.2.1 rfl⟩


end HeaderExtractor
